import Mathlib

/-!
Verification development for the "recap" cheatsheet application.

The development shallowly embeds the guest-mode (IndexedDB-backed)
persistence layer and the pure decision logic of the application:

* `src/lib/indexedDB.ts` — record shapes and the keyed object stores
  (`cheatsheetsDB`, `entriesDB`), modelled as lists of records where
  `put` is an upsert keyed by `id`;
* `src/hooks/useCheatsheets.ts` — list / create / soft-delete / restore /
  permanent-delete / get for cheatsheets (guest branches);
* `src/hooks/useSyntaxEntries.ts` — list / create / update / delete /
  reorder for syntax entries (guest branches);
* `src/components/CheatsheetEditor.tsx` — the position computation of
  `handleSaveEntry` and the dense 0..n-1 assignment built by
  `handleDragEnd`;
* `src/contexts/AppContext.tsx` — the `AppConfig` record, the mode
  derivation (JS truthiness of the two Supabase credentials), and
  `updateConfig` / `clearConfig`;
* `src/hooks/useAIGenerate.ts` — the lenient response parsing of
  `generate` (brace-block extraction and the no-block fallback).

Timestamps (`new Date().toISOString()`) are passed in explicitly as a
`now : String` argument; fresh ids (`crypto.randomUUID()`) are passed in
as a `newId : String` argument.  TypeScript `string | null` becomes
`Option String`; the JS `position` number is modelled as `Int`.
-/

/-- `LocalCheatsheet` from `src/lib/indexedDB.ts`. -/
structure LocalCheatsheet where
  id : String
  title : String
  description : Option String
  created_at : String
  updated_at : String
  deleted_at : Option String
deriving DecidableEq

/-- `LocalSyntaxEntry` from `src/lib/indexedDB.ts`.  The source field
`syntax` (the reference key term) is spelled `syn` here and the source
field `example` is spelled `exampleText`, since both are Lean keywords. -/
structure LocalSyntaxEntry where
  id : String
  cheatsheet_id : String
  syn : String
  category : String
  description : Option String
  exampleText : Option String
  notes : Option String
  display_format : String
  language : String
  position : Int
  created_at : String
  updated_at : String
deriving DecidableEq

/-- `AppConfig` from `src/lib/indexedDB.ts`: three nullable strings. -/
structure AppConfig where
  supabaseUrl : Option String
  supabaseAnonKey : Option String
  geminiApiKey : Option String
deriving DecidableEq

/-- The two operating modes derived in `AppContext.tsx`. -/
inductive Mode where
  | guest : Mode
  | cloud : Mode
deriving DecidableEq

/-- The persistent state of the two record collections of the local
IndexedDB database (`cheatsheets` and `entries` object stores).  Both
stores are keyed by `id`; the list holds the records of the store. -/
structure Store where
  cheatsheets : List LocalCheatsheet
  entries : List LocalSyntaxEntry
deriving DecidableEq

/-- IndexedDB `put` on a store keyed by `key`: replace the record whose
key equals the new record's key if one exists, otherwise add the record. -/
def putByKey (key : α → String) (xs : List α) (x : α) : List α :=
  if xs.any (fun y => key y = key x) then
    xs.map (fun y => if key y = key x then x else y)
  else
    xs ++ [x]

/-- `cheatsheetsDB.put`. -/
def cheatsheetsDB_put (s : Store) (c : LocalCheatsheet) : Store :=
  { s with cheatsheets := putByKey (fun c => c.id) s.cheatsheets c }

/-- `cheatsheetsDB.delete`. -/
def cheatsheetsDB_delete (s : Store) (id : String) : Store :=
  { s with cheatsheets := s.cheatsheets.filter (fun c => c.id ≠ id) }

/-- `cheatsheetsDB.get`: `all.find(c => c.id === id) || null`. -/
def cheatsheetsDB_get (s : Store) (id : String) : Option LocalCheatsheet :=
  s.cheatsheets.find? (fun c => c.id = id)

/-- `entriesDB.put`. -/
def entriesDB_put (s : Store) (e : LocalSyntaxEntry) : Store :=
  { s with entries := putByKey (fun e => e.id) s.entries e }

/-- `entriesDB.delete`. -/
def entriesDB_delete (s : Store) (id : String) : Store :=
  { s with entries := s.entries.filter (fun e => e.id ≠ id) }

/-- `entriesDB.getByCheatsheetId`: `all.filter(e => e.cheatsheet_id === cheatsheetId)`. -/
def entriesDB_getByCheatsheetId (s : Store) (cheatsheetId : String) : List LocalSyntaxEntry :=
  s.entries.filter (fun e => e.cheatsheet_id = cheatsheetId)

/-- `entriesDB.deleteByCheatsheetId`: computes the matching entries from a
snapshot of the store, then deletes them one by one by id. -/
def entriesDB_deleteByCheatsheetId (s : Store) (cheatsheetId : String) : Store :=
  let toDelete := s.entries.filter (fun e => e.cheatsheet_id = cheatsheetId)
  toDelete.foldl (fun acc e => entriesDB_delete acc e.id) s

/-- The view argument of `useCheatsheets`. -/
inductive View where
  | active : View
  | trash : View
deriving DecidableEq

/-- Guest branch of `useCheatsheets` (`src/hooks/useCheatsheets.ts`):
sort all local cheatsheets by `created_at` descending, then filter by
`deleted_at` nullity according to the view.  The source compares
`new Date(created_at).getTime()` values; that external date comparison
is abstracted as the Boolean comparator `le`, and the properties proved
below hold for every comparator. -/
def useCheatsheets (le : LocalCheatsheet → LocalCheatsheet → Bool)
    (s : Store) (view : View) : List LocalCheatsheet :=
  let sorted := s.cheatsheets.mergeSort le
  match view with
  | View.trash => sorted.filter (fun c => c.deleted_at ≠ none)
  | View.active => sorted.filter (fun c => c.deleted_at = none)

/-- Guest branch of `useCreateCheatsheet`: build a fresh record with
`deleted_at = null` and both timestamps set to now, and `put` it. -/
def useCreateCheatsheet (s : Store) (title : String) (description : Option String)
    (newId now : String) : Store × LocalCheatsheet :=
  let newCheatsheet : LocalCheatsheet :=
    { id := newId, title := title, description := description
      created_at := now, updated_at := now, deleted_at := none }
  (cheatsheetsDB_put s newCheatsheet, newCheatsheet)

/-- Guest branch of `useSoftDeleteCheatsheet`: if the id is found, `put`
the record with `deleted_at` set to the current time; otherwise do
nothing.  No field other than `deleted_at` is touched. -/
def useSoftDeleteCheatsheet (s : Store) (id now : String) : Store :=
  match cheatsheetsDB_get s id with
  | none => s
  | some cheatsheet => cheatsheetsDB_put s { cheatsheet with deleted_at := some now }

/-- Guest branch of `useRestoreCheatsheet`: if the id is found, `put`
the record with `deleted_at := null`; otherwise do nothing. -/
def useRestoreCheatsheet (s : Store) (id : String) : Store :=
  match cheatsheetsDB_get s id with
  | none => s
  | some cheatsheet => cheatsheetsDB_put s { cheatsheet with deleted_at := none }

/-- Guest branch of `usePermanentDeleteCheatsheet`: first delete every
entry owned by the cheatsheet, then delete the cheatsheet record. -/
def usePermanentDeleteCheatsheet (s : Store) (id : String) : Store :=
  cheatsheetsDB_delete (entriesDB_deleteByCheatsheetId s id) id

/-- Guest branch of `useCheatsheet` (single-cheatsheet read). -/
def useCheatsheet (s : Store) (id : String) : Option LocalCheatsheet :=
  cheatsheetsDB_get s id

/-- Guest branch of `useSyntaxEntries`: the entries of the cheatsheet
sorted ascending by `position` (`entries.sort((a, b) => a.position - b.position)`,
a stable sort, modelled by `List.mergeSort`). -/
def useSyntaxEntries (s : Store) (cheatsheetId : String) : List LocalSyntaxEntry :=
  (entriesDB_getByCheatsheetId s cheatsheetId).mergeSort
    (fun a b => a.position ≤ b.position)

/-- The caller-supplied fields of `useCreateEntry`'s mutation argument
(`cheatsheet_id` and `position` are passed separately below). -/
structure EntryFields where
  syn : String
  category : String
  description : Option String
  exampleText : Option String
  display_format : String
  language : String
deriving DecidableEq

/-- Guest branch of `useCreateEntry`: build a fresh record (with
`notes = null` and both timestamps set to now) and `put` it. -/
def useCreateEntry (s : Store) (cheatsheet_id : String) (f : EntryFields)
    (position : Int) (newId now : String) : Store × LocalSyntaxEntry :=
  let newEntry : LocalSyntaxEntry :=
    { id := newId, cheatsheet_id := cheatsheet_id
      syn := f.syn, category := f.category
      description := f.description, exampleText := f.exampleText
      notes := none, display_format := f.display_format
      language := f.language, position := position
      created_at := now, updated_at := now }
  (entriesDB_put s newEntry, newEntry)

/-- The mutation argument of `useUpdateEntry`. -/
structure UpdateEntryArgs where
  id : String
  cheatsheet_id : String
  syn : String
  category : String
  description : Option String
  exampleText : Option String
  display_format : String
  language : String
deriving DecidableEq

/-- `{...existing, ...entry, updated_at: now}` from the guest branch of
`useUpdateEntry`: every field of the argument overwrites the stored
record, `updated_at` is refreshed, and `notes`, `position`,
`created_at` are retained from the stored record. -/
def applyUpdateEntry (existing : LocalSyntaxEntry) (u : UpdateEntryArgs)
    (now : String) : LocalSyntaxEntry :=
  { existing with
    id := u.id, cheatsheet_id := u.cheatsheet_id
    syn := u.syn, category := u.category
    description := u.description, exampleText := u.exampleText
    display_format := u.display_format, language := u.language
    updated_at := now }

/-- Guest branch of `useUpdateEntry`: look the id up in a snapshot of
the store; if found, `put` the merged record, else do nothing. -/
def useUpdateEntry (s : Store) (u : UpdateEntryArgs) (now : String) : Store :=
  match s.entries.find? (fun e => e.id = u.id) with
  | none => s
  | some existing => entriesDB_put s (applyUpdateEntry existing u now)

/-- Guest branch of `useDeleteEntry`. -/
def useDeleteEntry (s : Store) (id : String) : Store :=
  entriesDB_delete s id

/-- `positionMap.get(id)` where `positionMap = new Map(entries.map(e => [e.id, e.position]))`:
for duplicate ids the later pair wins, so the lookup returns the value of
the last pair carrying the id. -/
def lookupLast (assignments : List (String × Int)) (id : String) : Option Int :=
  (assignments.reverse.find? (fun p => p.1 = id)).map (fun p => p.2)

/-- Guest branch of `useReorderEntries`: iterate over a snapshot of all
entries and, for each entry listed in the position map, `put` the entry
with its position replaced by the mapped value. -/
def useReorderEntries (s : Store) (assignments : List (String × Int)) : Store :=
  s.entries.foldl
    (fun acc e =>
      match lookupLast assignments e.id with
      | some p => entriesDB_put acc { e with position := p }
      | none => acc)
    s

/-- Models JS `x || 0` on an integer: `0` is falsy and maps to the
default `0`; every other integer is truthy and kept. -/
def jsOrZero (x : Int) : Int :=
  if x = 0 then 0 else x

/-- The position fold of `handleSaveEntry` in `CheatsheetEditor.tsx`:
`entries.reduce((max, entry) => Math.max(max, entry.position || 0), -1)`. -/
def maxPosition (entries : List LocalSyntaxEntry) : Int :=
  entries.foldl (fun m e => max m (jsOrZero e.position)) (-1)

/-- `handleSaveEntry` in `CheatsheetEditor.tsx`: read the displayed entry
list, compute `maxPosition + 1`, and create the entry at that position. -/
def handleSaveEntry (s : Store) (cheatsheetId : String) (f : EntryFields)
    (newId now : String) : Store × LocalSyntaxEntry :=
  let entries := useSyntaxEntries s cheatsheetId
  let maxPos := maxPosition entries
  useCreateEntry s cheatsheetId f (maxPos + 1) newId now

/-- The batch built by `handleDragEnd` in `CheatsheetEditor.tsx`:
`reorderedEntries.map((entry, index) => ({id: entry.id, position: index}))`. -/
def handleDragEndUpdates (reorderedEntries : List LocalSyntaxEntry) : List (String × Int) :=
  reorderedEntries.enum.map (fun p => (p.2.id, (p.1 : Int)))

/-- JS truthiness of a nullable string: `null` and `""` are falsy. -/
def truthyStr : Option String → Bool
  | none => false
  | some s => s ≠ ""

/-- Mode derivation from `AppContext.tsx` line 32:
`config.supabaseUrl && config.supabaseAnonKey ? "cloud" : "guest"`. -/
def deriveMode (config : AppConfig) : Mode :=
  if truthyStr config.supabaseUrl && truthyStr config.supabaseAnonKey then
    Mode.cloud
  else
    Mode.guest

/-- A `Partial<AppConfig>` patch: `none` means the field is absent from
the patch (previous value kept by the object spread), `some v` means the
field is present with nullable value `v`. -/
structure ConfigPatch where
  supabaseUrl : Option (Option String)
  supabaseAnonKey : Option (Option String)
  geminiApiKey : Option (Option String)
deriving DecidableEq

/-- `updateConfig` from `AppContext.tsx`: `{...prev, ...newConfig}`. -/
def updateConfig (prev : AppConfig) (patch : ConfigPatch) : AppConfig :=
  { supabaseUrl := patch.supabaseUrl.getD prev.supabaseUrl
    supabaseAnonKey := patch.supabaseAnonKey.getD prev.supabaseAnonKey
    geminiApiKey := patch.geminiApiKey.getD prev.geminiApiKey }

/-- `clearConfig` from `AppContext.tsx`: all three fields reset to null. -/
def clearConfig : AppConfig :=
  { supabaseUrl := none, supabaseAnonKey := none, geminiApiKey := none }

/-- The result record of `useAIGenerate`'s `generate`. -/
structure GenerateResult where
  description : String
  exampleText : String
  language : String
deriving DecidableEq

/-- The three nullable string fields that `generate` reads off the
object produced by `JSON.parse` of the extracted brace block. -/
structure ParsedTriple where
  description : Option String
  exampleText : Option String
  language : Option String
deriving DecidableEq

/-- JS `s || d` for a string `s`: the empty string is falsy. -/
def jsOrStr (s d : String) : String :=
  if s = "" then d else s

/-- JS `o || d` for a nullable string `o`: `null` and `""` are falsy. -/
def jsOrOptStr (o : Option String) (d : String) : String :=
  match o with
  | none => d
  | some s => jsOrStr s d

/-- The prefix of `l` up to and including the last occurrence of `c`
(meaningful only when `c ∈ l`). -/
def takeThroughLast (c : Char) (l : List Char) : List Char :=
  (l.reverse.dropWhile (fun x => x ≠ c)).reverse

/-- `content.match(/\x7b[\s\S]*\x7d/)`: the regex finds a match exactly
when some `{` occurs strictly before some `}`; the (greedy) match runs
from the first `{` to the last `}` after it. -/
def braceBlock? : List Char → Option (List Char)
  | [] => none
  | c :: rest =>
      if c = '{' then
        if rest.contains '}' then some (c :: takeThroughLast '}' rest) else none
      else
        braceBlock? rest

/-- "The text contains no brace-delimited block": no `{` occurs strictly
before a `}`. -/
def NoBraceBlock (cs : List Char) : Prop :=
  ∀ j, j < cs.length → ∀ i, i < j → ¬(cs[i]? = some '{' ∧ cs[j]? = some '}')

instance (cs : List Char) : Decidable (NoBraceBlock cs) := by
  unfold NoBraceBlock
  infer_instance

/-- The response-parsing tail of `generate` in `useAIGenerate.ts`, from
the extracted response text onward.  `JSON.parse` of the matched block
(an external library call) is abstracted as the `parseJson` argument;
`none` models a parse exception, which the surrounding `try`/`catch`
turns into a `null` result.  When no brace block is found, the fallback
returns the whole text as the description, an empty example, and
`language || "javascript"`. -/
def generateParse (parseJson : String → Option ParsedTriple)
    (content : String) (language : String) : Option GenerateResult :=
  match braceBlock? content.toList with
  | some block =>
      match parseJson (String.mk block) with
      | some parsed =>
          some { description := jsOrOptStr parsed.description ""
                 exampleText := jsOrOptStr parsed.exampleText ""
                 language := jsOrOptStr parsed.language (jsOrStr language "javascript") }
      | none => none
  | none =>
      some { description := content, exampleText := ""
             language := jsOrStr language "javascript" }

/-! ### Helper lemmas about the store primitives -/

theorem putByKey_append (key : α → String) (xs : List α) (x : α)
    (h : ∀ y ∈ xs, key y ≠ key x) : putByKey key xs x = xs ++ [x] := by
  have hc : ¬ ((xs.any (fun y => key y = key x)) = true) := by
    rw [List.any_eq_true]
    rintro ⟨y, hy, hk⟩
    exact h y hy (by simpa using hk)
  unfold putByKey
  rw [if_neg hc]

theorem putByKey_replace (key : α → String) (xs : List α) (x : α)
    (h : ∃ y ∈ xs, key y = key x) :
    putByKey key xs x = xs.map (fun y => if key y = key x then x else y) := by
  have hc : (xs.any (fun y => key y = key x)) = true := by
    rw [List.any_eq_true]
    obtain ⟨y, hy, hk⟩ := h
    exact ⟨y, hy, by simpa using hk⟩
  unfold putByKey
  rw [if_pos hc]

theorem find?_putByKey (key : α → String) (xs : List α) (x c : α) (k : String)
    (hfind : xs.find? (fun y => key y = k) = some c) (hx : key x = k) :
    (putByKey key xs x).find? (fun y => key y = k) = some x := by
  have hc : key c = k := by simpa using List.find?_some hfind
  have hmem : c ∈ xs := List.mem_of_find?_eq_some hfind
  rw [putByKey_replace key xs x ⟨c, hmem, by rw [hc, hx]⟩]
  clear hmem
  induction xs with
  | nil => simp at hfind
  | cons y ys ih =>
      by_cases hy : key y = k
      · simp only [List.map_cons, List.find?_cons, hy, hx, if_pos]
        simp [hx]
      · have hyx : ¬ key y = key x := by rw [hx]; exact hy
        simp only [List.find?_cons] at hfind
        rw [decide_eq_false hy] at hfind
        simp only [List.map_cons, if_neg hyx, List.find?_cons, decide_eq_false hy]
        exact ih hfind

theorem putByKey_map_eq (key : α → String) (f : α → β) (xs : List α) (x c : α)
    (hnd : (xs.map key).Nodup)
    (hfind : xs.find? (fun y => key y = key x) = some c)
    (hf : f x = f c) :
    (putByKey key xs x).map f = xs.map f := by
  have hc : key c = key x := by simpa using List.find?_some hfind
  have hmem : c ∈ xs := List.mem_of_find?_eq_some hfind
  rw [putByKey_replace key xs x ⟨c, hmem, hc⟩, List.map_map]
  apply List.map_congr_left
  intro y hy
  simp only [Function.comp_apply]
  by_cases h : key y = key x
  · have : y = c := List.inj_on_of_nodup_map hnd hy hmem (by rw [h, hc])
    rw [if_pos h, hf, this]
  · rw [if_neg h]

theorem foldl_delete_cheatsheets (todo : List LocalSyntaxEntry) (acc : Store) :
    (todo.foldl (fun acc e => entriesDB_delete acc e.id) acc).cheatsheets
      = acc.cheatsheets := by
  induction todo generalizing acc with
  | nil => rfl
  | cons d rest ih => exact ih _

theorem mem_foldl_delete (todo : List LocalSyntaxEntry) (acc : Store)
    (e : LocalSyntaxEntry)
    (he : e ∈ (todo.foldl (fun acc d => entriesDB_delete acc d.id) acc).entries) :
    e ∈ acc.entries ∧ ∀ d ∈ todo, e.id ≠ d.id := by
  induction todo generalizing acc with
  | nil => exact ⟨he, by simp⟩
  | cons d rest ih =>
      obtain ⟨hmem, hrest⟩ := ih (entriesDB_delete acc d.id) he
      simp only [entriesDB_delete, List.mem_filter] at hmem
      obtain ⟨hacc, hneq⟩ := hmem
      refine ⟨hacc, ?_⟩
      intro d' hd'
      rcases List.mem_cons.mp hd' with h | h
      · subst h
        simpa using hneq
      · exact hrest d' h

theorem deleteByCheatsheetId_no_owned (s : Store) (cheatsheetId : String)
    (e : LocalSyntaxEntry)
    (he : e ∈ (entriesDB_deleteByCheatsheetId s cheatsheetId).entries) :
    e ∈ s.entries ∧ e.cheatsheet_id ≠ cheatsheetId := by
  unfold entriesDB_deleteByCheatsheetId at he
  obtain ⟨hmem, hall⟩ := mem_foldl_delete _ _ _ he
  refine ⟨hmem, ?_⟩
  intro hcid
  exact hall e (List.mem_filter.mpr ⟨hmem, by simpa using hcid⟩) rfl

theorem deleteByCheatsheetId_cheatsheets (s : Store) (cheatsheetId : String) :
    (entriesDB_deleteByCheatsheetId s cheatsheetId).cheatsheets = s.cheatsheets := by
  unfold entriesDB_deleteByCheatsheetId
  exact foldl_delete_cheatsheets _ _

/-! ### Helper lemmas about `maxPosition` -/

theorem jsOrZero_eq (x : Int) : jsOrZero x = x := by
  unfold jsOrZero
  split <;> omega

theorem le_foldl_max (l : List LocalSyntaxEntry) (b : Int) :
    b ≤ l.foldl (fun m e => max m (jsOrZero e.position)) b := by
  induction l generalizing b with
  | nil => exact le_refl b
  | cons e rest ih =>
      calc b ≤ max b (jsOrZero e.position) := le_max_left _ _
        _ ≤ _ := ih _

theorem mem_le_foldl_max (l : List LocalSyntaxEntry) (b : Int)
    (e : LocalSyntaxEntry) (he : e ∈ l) :
    e.position ≤ l.foldl (fun m x => max m (jsOrZero x.position)) b := by
  induction l generalizing b with
  | nil => simp at he
  | cons x rest ih =>
      rcases List.mem_cons.mp he with h | h
      · subst h
        calc e.position = jsOrZero e.position := (jsOrZero_eq _).symm
          _ ≤ max b (jsOrZero e.position) := le_max_right _ _
          _ ≤ _ := le_foldl_max rest _
      · exact ih _ h

theorem foldl_max_cases (l : List LocalSyntaxEntry) (b : Int) :
    l.foldl (fun m e => max m (jsOrZero e.position)) b = b ∨
      ∃ e ∈ l, l.foldl (fun m e => max m (jsOrZero e.position)) b = e.position := by
  induction l generalizing b with
  | nil => exact Or.inl rfl
  | cons x rest ih =>
      rcases ih (max b (jsOrZero x.position)) with h | ⟨e, he, hx⟩
      · simp only [List.foldl_cons]
        rcases max_choice b (jsOrZero x.position) with hm | hm
        · exact Or.inl (by rw [h, hm])
        · exact Or.inr ⟨x, List.mem_cons_self x rest, by rw [h, hm, jsOrZero_eq]⟩
      · exact Or.inr ⟨e, List.mem_cons_of_mem x he, hx⟩

/-! ### Helper lemmas about `lookupLast` and the reorder fold -/

theorem lookupLast_of_nodup (a : List (String × Int)) (k : String) (v : Int)
    (hnd : (a.map Prod.fst).Nodup) (hmem : (k, v) ∈ a) :
    lookupLast a k = some v := by
  have hmemr : (k, v) ∈ a.reverse := List.mem_reverse.mpr hmem
  have hndr : (a.reverse.map Prod.fst).Nodup := by
    rw [List.map_reverse, List.nodup_reverse]
    exact hnd
  have hsome : (a.reverse.find? (fun p => p.1 = k)).isSome := by
    rw [List.find?_isSome]
    exact ⟨(k, v), hmemr, by simp⟩
  obtain ⟨q, hq⟩ := Option.isSome_iff_exists.mp hsome
  have hqk : q.1 = k := by simpa using List.find?_some hq
  have hqmem : q ∈ a.reverse := List.mem_of_find?_eq_some hq
  have : q = (k, v) := List.inj_on_of_nodup_map hndr hqmem hmemr (by simp [hqk])
  unfold lookupLast
  rw [hq, this]
  rfl

/-- The pointwise effect of one reorder assignment batch on a single
record: listed entries get their mapped position, others are unchanged. -/
def updEntry (a : List (String × Int)) (e : LocalSyntaxEntry) : LocalSyntaxEntry :=
  match lookupLast a e.id with
  | some p => { e with position := p }
  | none => e

theorem updEntry_id (a : List (String × Int)) (e : LocalSyntaxEntry) :
    (updEntry a e).id = e.id := by
  unfold updEntry
  split <;> rfl

theorem updEntry_cheatsheet_id (a : List (String × Int)) (e : LocalSyntaxEntry) :
    (updEntry a e).cheatsheet_id = e.cheatsheet_id := by
  unfold updEntry
  split <;> rfl

theorem updEntry_updated_at (a : List (String × Int)) (e : LocalSyntaxEntry) :
    (updEntry a e).updated_at = e.updated_at := by
  unfold updEntry
  split <;> rfl

/-- One step of the guest reorder loop, acting on the entries list. -/
def reorderStep (a : List (String × Int)) (acc : List LocalSyntaxEntry)
    (e : LocalSyntaxEntry) : List LocalSyntaxEntry :=
  match lookupLast a e.id with
  | some p => putByKey (fun e => e.id) acc { e with position := p }
  | none => acc

theorem useReorderEntries_fold (a : List (String × Int)) :
    ∀ (todo : List LocalSyntaxEntry) (acc : Store),
      (todo.foldl
        (fun acc e =>
          match lookupLast a e.id with
          | some p => entriesDB_put acc { e with position := p }
          | none => acc)
        acc).cheatsheets = acc.cheatsheets ∧
      (todo.foldl
        (fun acc e =>
          match lookupLast a e.id with
          | some p => entriesDB_put acc { e with position := p }
          | none => acc)
        acc).entries = todo.foldl (reorderStep a) acc.entries := by
  intro todo
  induction todo with
  | nil => exact fun acc => ⟨rfl, rfl⟩
  | cons e rest ih =>
      intro acc
      simp only [List.foldl_cons]
      have hstep :
          (match lookupLast a e.id with
            | some p => entriesDB_put acc { e with position := p }
            | none => acc) =
          { acc with entries := reorderStep a acc.entries e } := by
        unfold reorderStep entriesDB_put
        split <;> rfl
      rw [hstep]
      exact ih _

theorem reorder_foldl_eq (a : List (String × Int)) :
    ∀ (todo acc : List LocalSyntaxEntry),
      (acc.map (fun e => e.id)).Nodup →
      (todo.map (fun e => e.id)).Nodup →
      (∀ e ∈ todo, e ∈ acc) →
      todo.foldl (reorderStep a) acc =
        acc.map (fun x => if x.id ∈ todo.map (fun e => e.id) then updEntry a x else x) := by
  intro todo
  induction todo with
  | nil =>
      intro acc _ _ _
      simp
  | cons e rest ih =>
      intro acc hndacc hndtodo hsub
      have hetodo : e ∈ e :: rest := List.mem_cons_self e rest
      have heacc : e ∈ acc := hsub e hetodo
      have hpair : (∀ x ∈ rest, ¬x.id = e.id) ∧ (rest.map (fun e => e.id)).Nodup := by
        simpa using hndtodo
      have hndrest : (rest.map (fun e => e.id)).Nodup := hpair.2
      have henotrest : e.id ∉ rest.map (fun e => e.id) := by
        simp only [List.mem_map]
        rintro ⟨x, hx, hxe⟩
        exact hpair.1 x hx hxe
      simp only [List.foldl_cons]
      cases hlk : lookupLast a e.id with
      | none =>
          have hstep : reorderStep a acc e = acc := by
            unfold reorderStep
            rw [hlk]
          rw [hstep, ih acc hndacc hndrest (fun x hx => hsub x (List.mem_cons_of_mem e hx))]
          apply List.map_congr_left
          intro y hy
          by_cases hmem : y.id ∈ rest.map (fun e => e.id)
          · rw [if_pos hmem, if_pos (by simp only [List.map_cons]; exact List.mem_cons_of_mem _ hmem)]
          · rw [if_neg hmem]
            by_cases hye : y.id = e.id
            · rw [if_pos (by simp only [List.map_cons]; exact List.mem_cons.mpr (Or.inl hye))]
              unfold updEntry
              rw [hye, hlk]
            · rw [if_neg (by simp only [List.map_cons]; rw [List.mem_cons]; rintro (h | h); exact hye h; exact hmem h)]
      | some p =>
          have hupd : updEntry a e = { e with position := p } := by
            unfold updEntry
            rw [hlk]
          have hstep0 : reorderStep a acc e =
              putByKey (fun x => x.id) acc { e with position := p } := by
            unfold reorderStep
            rw [hlk]
          have hstep : reorderStep a acc e =
              acc.map (fun y => if y.id = e.id then updEntry a y else y) := by
            rw [hstep0,
              putByKey_replace (fun x => x.id) acc { e with position := p }
                ⟨e, heacc, by exact rfl⟩]
            apply List.map_congr_left
            intro y hy
            by_cases hye : y.id = e.id
            · have : y = e := List.inj_on_of_nodup_map hndacc hy heacc hye
              rw [if_pos (by simpa using hye), if_pos hye, this, hupd]
            · rw [if_neg (by simpa using hye), if_neg hye]
          rw [hstep]
          set acc' := acc.map (fun y => if y.id = e.id then updEntry a y else y) with hacc'
          have hids : acc'.map (fun e => e.id) = acc.map (fun e => e.id) := by
            rw [hacc', List.map_map]
            apply List.map_congr_left
            intro y hy
            simp only [Function.comp_apply]
            by_cases hye : y.id = e.id
            · rw [if_pos hye, updEntry_id, hye]
            · rw [if_neg hye]
          have hndacc' : (acc'.map (fun e => e.id)).Nodup := by
            rw [hids]; exact hndacc
          have hsub' : ∀ x ∈ rest, x ∈ acc' := by
            intro x hx
            have hxacc : x ∈ acc := hsub x (List.mem_cons_of_mem e hx)
            have hxe : x.id ≠ e.id := by
              intro hcontra
              exact henotrest (hcontra ▸ List.mem_map_of_mem (fun e => e.id) hx)
            rw [hacc']
            have : (fun y => if y.id = e.id then updEntry a y else y) x = x := by
              simp only [if_neg hxe]
            exact this ▸ List.mem_map_of_mem _ hxacc
          rw [ih acc' hndacc' hndrest hsub', hacc', List.map_map]
          apply List.map_congr_left
          intro y hy
          simp only [Function.comp_apply]
          by_cases hye : y.id = e.id
          · rw [if_pos hye]
            have hynotrest : (updEntry a y).id ∉ rest.map (fun e => e.id) := by
              rw [updEntry_id, hye]
              exact henotrest
            rw [if_neg hynotrest,
              if_pos (by simp only [List.map_cons]; exact List.mem_cons.mpr (Or.inl hye))]
          · rw [if_neg hye]
            by_cases hmem : y.id ∈ rest.map (fun e => e.id)
            · rw [if_pos hmem, if_pos (by simp only [List.map_cons]; exact List.mem_cons_of_mem _ hmem)]
            · rw [if_neg hmem,
                if_neg (by simp only [List.map_cons]; rw [List.mem_cons]; rintro (h | h); exact hye h; exact hmem h)]

/-- Characterization of the guest reorder on a store with unique entry
ids (IndexedDB guarantees key uniqueness): every listed entry gets its
mapped position, every other record is untouched, and the cheatsheet
collection is untouched. -/
theorem useReorderEntries_eq (s : Store) (a : List (String × Int))
    (hnd : (s.entries.map (fun e => e.id)).Nodup) :
    (useReorderEntries s a).entries = s.entries.map (updEntry a) ∧
      (useReorderEntries s a).cheatsheets = s.cheatsheets := by
  unfold useReorderEntries
  obtain ⟨hch, hen⟩ := useReorderEntries_fold a s.entries s
  refine ⟨?_, hch⟩
  rw [hen, reorder_foldl_eq a s.entries s.entries hnd hnd (fun e he => he)]
  apply List.map_congr_left
  intro y hy
  rw [if_pos (List.mem_map_of_mem (fun e => e.id) hy)]

/-! ### Sorting helpers -/

/-- A list that is sorted (non-strictly) by position and is a permutation
of a list that is strictly sorted by position equals that list. -/
theorem perm_pairwise_eq :
    ∀ {t l : List LocalSyntaxEntry}, l.Perm t →
      l.Pairwise (fun a b => a.position ≤ b.position) →
      t.Pairwise (fun a b => a.position < b.position) → l = t := by
  intro t
  induction t with
  | nil =>
      intro l hperm _ _
      exact List.perm_nil.mp hperm
  | cons x ts ih =>
      intro l hperm hl ht
      cases l with
      | nil => exact absurd (List.perm_nil.mp hperm.symm) (by simp)
      | cons y ls =>
          have hyx : y = x := by
            by_contra hne
            have hy_mem : y ∈ x :: ts := hperm.subset (List.mem_cons_self y ls)
            have hy_ts : y ∈ ts := by
              rcases List.mem_cons.mp hy_mem with h | h
              · exact absurd h hne
              · exact h
            have hxy : x.position < y.position :=
              (List.pairwise_cons.mp ht).1 y hy_ts
            have hx_mem : x ∈ y :: ls := hperm.symm.subset (List.mem_cons_self x ts)
            have hx_ls : x ∈ ls := by
              rcases List.mem_cons.mp hx_mem with h | h
              · exact absurd h.symm hne
              · exact h
            have hyx' : y.position ≤ x.position :=
              (List.pairwise_cons.mp hl).1 x hx_ls
            omega
          subst hyx
          have htails : ls.Perm ts := hperm.cons_inv
          have := ih htails (List.pairwise_cons.mp hl).2 (List.pairwise_cons.mp ht).2
          rw [this]

/-! ### Brace-block extraction helpers -/

theorem braceBlock?_eq_none_of_noBraceBlock :
    ∀ cs : List Char, NoBraceBlock cs → braceBlock? cs = none := by
  intro cs
  induction cs with
  | nil => intro _; rfl
  | cons c rest ih =>
      intro h
      unfold braceBlock?
      by_cases hc : c = '{'
      · rw [if_pos hc]
        have hcontains : ¬ rest.contains '}' := by
          intro hcon
          have hmem : '}' ∈ rest := by simpa using hcon
          obtain ⟨j, hj, hget⟩ := List.mem_iff_getElem.mp hmem
          have := h (j + 1) (by simpa using Nat.succ_lt_succ hj) 0 (Nat.succ_pos j)
          apply this
          constructor
          · simp [hc]
          · simpa [List.getElem?_cons_succ] using (List.getElem?_eq_getElem hj).trans (by rw [hget])
        rw [if_neg (by simpa using hcontains)]
      · rw [if_neg hc]
        apply ih
        intro j hj i hij
        have := h (j + 1) (by simpa using Nat.succ_lt_succ hj) (i + 1) (Nat.succ_lt_succ hij)
        simpa [List.getElem?_cons_succ] using this

/-! ### Soft-delete / restore helpers -/

theorem get_after_softDelete (s : Store) (id now : String) (c : LocalCheatsheet)
    (h : cheatsheetsDB_get s id = some c) :
    cheatsheetsDB_get (useSoftDeleteCheatsheet s id now) id
      = some { c with deleted_at := some now } := by
  have hc : c.id = id := by simpa using List.find?_some h
  have hs : useSoftDeleteCheatsheet s id now
      = cheatsheetsDB_put s { c with deleted_at := some now } := by
    unfold useSoftDeleteCheatsheet
    rw [h]
  rw [hs]
  unfold cheatsheetsDB_get cheatsheetsDB_put
  unfold cheatsheetsDB_get at h
  exact find?_putByKey (fun c => c.id) s.cheatsheets
    { c with deleted_at := some now } c id h (by simpa using hc)

theorem get_after_restore (s : Store) (id : String) (c : LocalCheatsheet)
    (h : cheatsheetsDB_get s id = some c) :
    cheatsheetsDB_get (useRestoreCheatsheet s id) id
      = some { c with deleted_at := none } := by
  have hc : c.id = id := by simpa using List.find?_some h
  have hs : useRestoreCheatsheet s id
      = cheatsheetsDB_put s { c with deleted_at := none } := by
    unfold useRestoreCheatsheet
    rw [h]
  rw [hs]
  unfold cheatsheetsDB_get cheatsheetsDB_put
  unfold cheatsheetsDB_get at h
  exact find?_putByKey (fun c => c.id) s.cheatsheets
    { c with deleted_at := none } c id h (by simpa using hc)

theorem mem_of_mem_putByKey (key : α → String) (xs : List α) (x z : α)
    (hz : z ∈ putByKey key xs x) : z = x ∨ (z ∈ xs ∧ key z ≠ key x) := by
  unfold putByKey at hz
  by_cases hany : (xs.any (fun y => key y = key x)) = true
  · rw [if_pos hany] at hz
    rcases List.mem_map.mp hz with ⟨y, hy, hyz⟩
    by_cases hyk : key y = key x
    · rw [if_pos hyk] at hyz
      exact Or.inl hyz.symm
    · rw [if_neg hyk] at hyz
      exact Or.inr ⟨hyz ▸ hy, hyz ▸ hyk⟩
  · rw [if_neg hany] at hz
    rcases List.mem_append.mp hz with h | h
    · refine Or.inr ⟨h, ?_⟩
      rw [List.any_eq_true] at hany
      intro hk
      exact hany ⟨z, h, by simpa using hk⟩
    · simp at h
      exact Or.inl h

/-! ### Additional helpers for the claims -/

theorem softDelete_preserves_updated_at (s : Store) (id now : String)
    (hnd : (s.cheatsheets.map (fun c => c.id)).Nodup) :
    (useSoftDeleteCheatsheet s id now).cheatsheets.map (fun c => c.updated_at)
      = s.cheatsheets.map (fun c => c.updated_at) := by
  unfold useSoftDeleteCheatsheet
  cases h : cheatsheetsDB_get s id with
  | none => rfl
  | some c =>
      have hc : c.id = id := by
        unfold cheatsheetsDB_get at h
        simpa using List.find?_some h
      have h' : s.cheatsheets.find?
          (fun y => y.id = ({ c with deleted_at := some now } : LocalCheatsheet).id)
            = some c := by
        unfold cheatsheetsDB_get at h
        simpa [hc] using h
      unfold cheatsheetsDB_put
      have hf : ({ c with deleted_at := some now } : LocalCheatsheet).updated_at
          = c.updated_at := rfl
      exact putByKey_map_eq (fun c => c.id) (fun c => c.updated_at) s.cheatsheets
        { c with deleted_at := some now } c hnd h' hf

theorem restore_preserves_updated_at (s : Store) (id : String)
    (hnd : (s.cheatsheets.map (fun c => c.id)).Nodup) :
    (useRestoreCheatsheet s id).cheatsheets.map (fun c => c.updated_at)
      = s.cheatsheets.map (fun c => c.updated_at) := by
  unfold useRestoreCheatsheet
  cases h : cheatsheetsDB_get s id with
  | none => rfl
  | some c =>
      have hc : c.id = id := by
        unfold cheatsheetsDB_get at h
        simpa using List.find?_some h
      have h' : s.cheatsheets.find?
          (fun y => y.id = ({ c with deleted_at := none } : LocalCheatsheet).id)
            = some c := by
        unfold cheatsheetsDB_get at h
        simpa [hc] using h
      unfold cheatsheetsDB_put
      have hf : ({ c with deleted_at := none } : LocalCheatsheet).updated_at
          = c.updated_at := rfl
      exact putByKey_map_eq (fun c => c.id) (fun c => c.updated_at) s.cheatsheets
        { c with deleted_at := none } c hnd h' hf

/-! ### Concrete fixtures for witnesses and counterexamples -/

/-- A demo cheatsheet record used to instantiate theorems. -/
def demoCheatsheet : LocalCheatsheet :=
  { id := "c1", title := "JS Basics", description := none
    created_at := "2024-01-01T00:00:00Z", updated_at := "2024-01-01T00:00:00Z"
    deleted_at := none }

/-- A demo entry belonging to `demoCheatsheet`. -/
def demoEntryA : LocalSyntaxEntry :=
  { id := "e1", cheatsheet_id := "c1", syn := "Array.map()", category := "Arrays"
    description := none, exampleText := none, notes := none
    display_format := "card", language := "javascript", position := 0
    created_at := "2024-01-01T00:00:00Z", updated_at := "2024-01-01T00:00:00Z" }

/-- A second demo entry belonging to `demoCheatsheet`. -/
def demoEntryB : LocalSyntaxEntry :=
  { id := "e2", cheatsheet_id := "c1", syn := "Array.filter()", category := "Arrays"
    description := none, exampleText := none, notes := none
    display_format := "card", language := "javascript", position := 1
    created_at := "2024-01-01T00:00:00Z", updated_at := "2024-01-01T00:00:00Z" }

/-- A demo store holding one cheatsheet with two entries. -/
def demoStore : Store :=
  { cheatsheets := [demoCheatsheet], entries := [demoEntryA, demoEntryB] }

/-! ### The claims -/

/-- C3: after `purgeCheatsheet(id)` (guest branch of
`usePermanentDeleteCheatsheet`), `listEntries(id)` is empty and
`getCheatsheet(id)` reports not-found; moreover the purge is, by
definition, the deletion of the cheatsheet record applied to the state
in which all entries owned by `id` have already been deleted, and in
that intermediate state the entry list of `id` is already empty — so an
interruption between the two steps never leaves entries without a
parent cheatsheet. -/
theorem purge_cascade (s : Store) (id : String) :
    usePermanentDeleteCheatsheet s id
      = cheatsheetsDB_delete (entriesDB_deleteByCheatsheetId s id) id ∧
    useSyntaxEntries (entriesDB_deleteByCheatsheetId s id) id = [] ∧
    useSyntaxEntries (usePermanentDeleteCheatsheet s id) id = [] ∧
    useCheatsheet (usePermanentDeleteCheatsheet s id) id = none := by
  have hmid : entriesDB_getByCheatsheetId (entriesDB_deleteByCheatsheetId s id) id = [] := by
    unfold entriesDB_getByCheatsheetId
    rw [List.filter_eq_nil_iff]
    intro e he
    have := (deleteByCheatsheetId_no_owned s id e he).2
    simpa using this
  have hmid' : useSyntaxEntries (entriesDB_deleteByCheatsheetId s id) id = [] := by
    unfold useSyntaxEntries
    rw [hmid, List.mergeSort_nil]
  refine ⟨rfl, hmid', ?_, ?_⟩
  · have hentries : (usePermanentDeleteCheatsheet s id).entries
        = (entriesDB_deleteByCheatsheetId s id).entries := rfl
    unfold useSyntaxEntries entriesDB_getByCheatsheetId
    rw [hentries]
    unfold useSyntaxEntries entriesDB_getByCheatsheetId at hmid'
    rw [hmid']
  · unfold useCheatsheet cheatsheetsDB_get usePermanentDeleteCheatsheet cheatsheetsDB_delete
    rw [List.find?_eq_none]
    intro c hc
    have := List.of_mem_filter hc
    simpa using this

/-- C6: soft-deleting and then restoring a stored cheatsheet yields the
record with every field of the original — `id`, `title`, `description`,
`created_at`, and even `updated_at` — unchanged, and `deleted_at`
null again. -/
theorem softDelete_restore_roundtrip (s : Store) (x : LocalCheatsheet) (now : String)
    (h : cheatsheetsDB_get s x.id = some x) :
    cheatsheetsDB_get (useRestoreCheatsheet (useSoftDeleteCheatsheet s x.id now) x.id) x.id
      = some { x with deleted_at := none } := by
  have h1 := get_after_softDelete s x.id now x h
  have h2 := get_after_restore (useSoftDeleteCheatsheet s x.id now) x.id
    { x with deleted_at := some now } h1
  exact h2

/-- Witness for C6 at the demo store. -/
theorem softDelete_restore_roundtrip_witness :
    cheatsheetsDB_get
        (useRestoreCheatsheet
          (useSoftDeleteCheatsheet demoStore "c1" "2024-02-02T00:00:00Z") "c1") "c1"
      = some { demoCheatsheet with deleted_at := none } :=
  softDelete_restore_roundtrip demoStore demoCheatsheet "2024-02-02T00:00:00Z" (by decide)

/-- C7: every cheatsheet present in the store is in the `active` view of
`useCheatsheets` exactly when `deleted_at` is null and in the `trash`
view exactly when `deleted_at` is non-null; consequently it is in
exactly one of the two views — never in both and never in neither —
whatever comparator the created-at sort uses. -/
theorem active_trash_partition (le : LocalCheatsheet → LocalCheatsheet → Bool)
    (s : Store) (c : LocalCheatsheet) (hc : c ∈ s.cheatsheets) :
    (c ∈ useCheatsheets le s View.active ↔ c.deleted_at = none) ∧
    (c ∈ useCheatsheets le s View.trash ↔ c.deleted_at ≠ none) ∧
    ((c ∈ useCheatsheets le s View.active ∧ c ∉ useCheatsheets le s View.trash) ∨
      (c ∉ useCheatsheets le s View.active ∧ c ∈ useCheatsheets le s View.trash)) := by
  have hsort : c ∈ s.cheatsheets.mergeSort le := (List.mergeSort_perm s.cheatsheets le).mem_iff.mpr hc
  have hactive : c ∈ useCheatsheets le s View.active ↔ c.deleted_at = none := by
    constructor
    · intro hmem
      have := (List.mem_filter.mp hmem).2
      simpa using this
    · intro hdel
      exact List.mem_filter.mpr ⟨hsort, by simpa using hdel⟩
  have htrash : c ∈ useCheatsheets le s View.trash ↔ c.deleted_at ≠ none := by
    constructor
    · intro hmem
      have := (List.mem_filter.mp hmem).2
      simpa using this
    · intro hdel
      exact List.mem_filter.mpr ⟨hsort, by simpa using hdel⟩
  refine ⟨hactive, htrash, ?_⟩
  by_cases hdel : c.deleted_at = none
  · exact Or.inl ⟨hactive.mpr hdel, fun hmem => (htrash.mp hmem) hdel⟩
  · exact Or.inr ⟨fun hmem => hdel (hactive.mp hmem), htrash.mpr hdel⟩

/-- Witness for C7 at the demo store (with a constant comparator): the
non-deleted demo cheatsheet is in the active view and not in the trash
view. -/
theorem active_trash_partition_witness :
    (demoCheatsheet ∈ useCheatsheets (fun _ _ => true) demoStore View.active ↔
      demoCheatsheet.deleted_at = none) ∧
    (demoCheatsheet ∈ useCheatsheets (fun _ _ => true) demoStore View.trash ↔
      demoCheatsheet.deleted_at ≠ none) ∧
    ((demoCheatsheet ∈ useCheatsheets (fun _ _ => true) demoStore View.active ∧
        demoCheatsheet ∉ useCheatsheets (fun _ _ => true) demoStore View.trash) ∨
      (demoCheatsheet ∉ useCheatsheets (fun _ _ => true) demoStore View.active ∧
        demoCheatsheet ∈ useCheatsheets (fun _ _ => true) demoStore View.trash)) :=
  active_trash_partition (fun _ _ => true) demoStore demoCheatsheet (by decide)

/-- C10: in guest mode, soft-deleting or restoring an id that is not in
the local store is a successful no-op: the guest branches are total
functions (nothing is thrown) and the store is returned unchanged. -/
theorem softDelete_restore_missing_id_noop (s : Store) (id now : String)
    (h : cheatsheetsDB_get s id = none) :
    useSoftDeleteCheatsheet s id now = s ∧ useRestoreCheatsheet s id = s := by
  constructor
  · unfold useSoftDeleteCheatsheet
    rw [h]
  · unfold useRestoreCheatsheet
    rw [h]

/-- Witness for C10: an id absent from the demo store. -/
theorem softDelete_restore_missing_id_noop_witness :
    useSoftDeleteCheatsheet demoStore "nope" "2024-02-02T00:00:00Z" = demoStore ∧
      useRestoreCheatsheet demoStore "nope" = demoStore :=
  softDelete_restore_missing_id_noop demoStore "nope" "2024-02-02T00:00:00Z" (by decide)

/-- An `AppConfig` whose credentials are both non-null but whose URL is
the empty string. -/
def emptyUrlConfig : AppConfig :=
  { supabaseUrl := some "", supabaseAnonKey := some "anon-key", geminiApiKey := none }

/-- C5 counterexample: in `emptyUrlConfig` both remote credentials are
non-null, yet the derived mode is `guest`, because the source derives
the mode from JS truthiness (`config.supabaseUrl && config.supabaseAnonKey`)
and the empty string is falsy.  So "mode is `cloud` iff both credentials
are non-null" is false as stated. -/
theorem mode_notnull_iff_counterexample :
    ¬ (deriveMode emptyUrlConfig = Mode.cloud ↔
        (emptyUrlConfig.supabaseUrl ≠ none ∧ emptyUrlConfig.supabaseAnonKey ≠ none)) := by
  decide

/-- C5 amended: the derived mode is `cloud` iff both the remote URL and
the remote key are non-null AND non-empty; setting either credential to
null via `updateConfig` (or clearing everything via `clearConfig`) makes
the next evaluation yield `guest`. -/
theorem mode_derivation (c : AppConfig) :
    (deriveMode c = Mode.cloud ↔
      ((∃ u, c.supabaseUrl = some u ∧ u ≠ "") ∧
        (∃ k, c.supabaseAnonKey = some k ∧ k ≠ ""))) ∧
    deriveMode (updateConfig c
      { supabaseUrl := some none, supabaseAnonKey := none, geminiApiKey := none })
        = Mode.guest ∧
    deriveMode (updateConfig c
      { supabaseUrl := none, supabaseAnonKey := some none, geminiApiKey := none })
        = Mode.guest ∧
    deriveMode clearConfig = Mode.guest := by
  refine ⟨?_, ?_, ?_, rfl⟩
  · unfold deriveMode truthyStr
    rcases c with ⟨u, k, g⟩
    cases u with
    | none => simp
    | some us =>
        cases k with
        | none => simp
        | some ks =>
            by_cases hu : us = "" <;> by_cases hk : ks = "" <;>
              simp [hu, hk]
  · unfold updateConfig deriveMode truthyStr
    simp
  · unfold updateConfig deriveMode truthyStr
    rcases c with ⟨u, k, g⟩
    simp

/-- C9: when the response text contains no brace-delimited block, the
generator returns the entire text as `description`, an empty `example`,
and the caller-supplied language — or the default `"javascript"` when
the caller supplied none (empty) — regardless of how the JSON branch
would have parsed. -/
theorem ai_fallback_parse (parseJson : String → Option ParsedTriple)
    (content language : String) (h : NoBraceBlock content.toList) :
    generateParse parseJson content language
      = some { description := content, exampleText := ""
               language := jsOrStr language "javascript" } := by
  unfold generateParse
  rw [braceBlock?_eq_none_of_noBraceBlock content.toList h]

/-- Witness for C9: a plain response text with no braces and no supplied
language yields the fallback with the default language. -/
theorem ai_fallback_parse_witness :
    generateParse (fun _ => none) "Array.map() creates a new array." ""
      = some { description := "Array.map() creates a new array."
               exampleText := "", language := "javascript" } :=
  ai_fallback_parse (fun _ => none) "Array.map() creates a new array." "" (by decide)

/-- C4 counterexample: soft-deleting `demoCheatsheet` (a mutation
performed at time `2024-02-02...`) stores a record whose `updated_at` is
still the original `2024-01-01...` creation time — the guest branch of
`useSoftDeleteCheatsheet` spreads the old record and sets only
`deleted_at`, so this mutation does not refresh `updated_at`. -/
theorem updated_at_refresh_counterexample :
    cheatsheetsDB_get (useSoftDeleteCheatsheet demoStore "c1" "2024-02-02T00:00:00Z") "c1"
      = some { demoCheatsheet with deleted_at := some "2024-02-02T00:00:00Z" } ∧
    demoCheatsheet.updated_at ≠ "2024-02-02T00:00:00Z" := by
  exact ⟨by decide, by decide⟩

/-- C4 amended: `updated_at` is refreshed by creation (cheatsheet and
entry) and by `updateEntry`, but soft-delete, restore, and reorder leave
every stored record's `updated_at` unchanged (guest branches). -/
theorem updated_at_behavior (s : Store) (u : UpdateEntryArgs) (a : List (String × Int))
    (title : String) (description : Option String) (cid : String) (f : EntryFields)
    (position : Int) (newId now id : String)
    (hndc : (s.cheatsheets.map (fun c => c.id)).Nodup)
    (hnde : (s.entries.map (fun e => e.id)).Nodup) :
    (useCreateCheatsheet s title description newId now).2.updated_at = now ∧
    (useCreateEntry s cid f position newId now).2.updated_at = now ∧
    (∀ e ∈ (useUpdateEntry s u now).entries, e.id = u.id → e.updated_at = now) ∧
    (useSoftDeleteCheatsheet s id now).cheatsheets.map (fun c => c.updated_at)
      = s.cheatsheets.map (fun c => c.updated_at) ∧
    (useRestoreCheatsheet s id).cheatsheets.map (fun c => c.updated_at)
      = s.cheatsheets.map (fun c => c.updated_at) ∧
    (useReorderEntries s a).entries.map (fun e => e.updated_at)
      = s.entries.map (fun e => e.updated_at) := by
  refine ⟨rfl, rfl, ?_, softDelete_preserves_updated_at s id now hndc,
    restore_preserves_updated_at s id hndc, ?_⟩
  · intro e he hid
    unfold useUpdateEntry at he
    cases hfind : s.entries.find? (fun x => x.id = u.id) with
    | none =>
        rw [hfind] at he
        rw [List.find?_eq_none] at hfind
        exact absurd (by simpa using hid) (hfind e he)
    | some existing =>
        rw [hfind] at he
        unfold entriesDB_put at he
        rcases mem_of_mem_putByKey (fun x => x.id) s.entries _ e he with h | ⟨_, hne⟩
        · rw [h]
          rfl
        · exact absurd (by simpa [applyUpdateEntry] using hid) hne
  · rw [(useReorderEntries_eq s a hnde).1, List.map_map]
    apply List.map_congr_left
    intro e _
    simp only [Function.comp_apply]
    exact updEntry_updated_at a e

/-- Witness for C4's amended theorem at the demo store. -/
theorem updated_at_behavior_witness :
    (useCreateCheatsheet demoStore "T" none "c9" "2024-03-03T00:00:00Z").2.updated_at
        = "2024-03-03T00:00:00Z" ∧
    (useCreateEntry demoStore "c1"
        { syn := "s", category := "c", description := none, exampleText := none
          display_format := "card", language := "javascript" }
        2 "e9" "2024-03-03T00:00:00Z").2.updated_at = "2024-03-03T00:00:00Z" ∧
    (∀ e ∈ (useUpdateEntry demoStore
        { id := "e1", cheatsheet_id := "c1", syn := "s2", category := "c2"
          description := none, exampleText := none
          display_format := "card", language := "javascript" }
        "2024-03-03T00:00:00Z").entries,
      e.id = "e1" → e.updated_at = "2024-03-03T00:00:00Z") ∧
    (useSoftDeleteCheatsheet demoStore "c1" "2024-03-03T00:00:00Z").cheatsheets.map
        (fun c => c.updated_at) = demoStore.cheatsheets.map (fun c => c.updated_at) ∧
    (useRestoreCheatsheet demoStore "c1").cheatsheets.map
        (fun c => c.updated_at) = demoStore.cheatsheets.map (fun c => c.updated_at) ∧
    (useReorderEntries demoStore [("e1", 1), ("e2", 0)]).entries.map
        (fun e => e.updated_at) = demoStore.entries.map (fun e => e.updated_at) :=
  updated_at_behavior demoStore
    { id := "e1", cheatsheet_id := "c1", syn := "s2", category := "c2"
      description := none, exampleText := none
      display_format := "card", language := "javascript" }
    [("e1", 1), ("e2", 0)] "T" none "c1"
    { syn := "s", category := "c", description := none, exampleText := none
      display_format := "card", language := "javascript" }
    2 "c9" "2024-03-03T00:00:00Z" "c1" (by decide) (by decide)

/-- C2: `handleSaveEntry` creates the new entry at position
`maxPosition + 1` computed over the displayed entry list: the position
is `0` when the cheatsheet has no entries, it strictly exceeds the
position of every existing entry of the cheatsheet, and for a non-empty
cheatsheet (with the data model's non-negative positions) it equals the
maximum existing position plus one; the existing records are not
touched — the store's entry list is the old list with the new record
appended. -/
theorem append_ordering (s : Store) (cheatsheetId : String) (f : EntryFields)
    (newId now : String)
    (hpos : ∀ e ∈ entriesDB_getByCheatsheetId s cheatsheetId, 0 ≤ e.position)
    (hfresh : ∀ e ∈ s.entries, e.id ≠ newId) :
    ((handleSaveEntry s cheatsheetId f newId now).1).entries
        = s.entries ++ [(handleSaveEntry s cheatsheetId f newId now).2] ∧
    (entriesDB_getByCheatsheetId s cheatsheetId = [] →
      (handleSaveEntry s cheatsheetId f newId now).2.position = 0) ∧
    (∀ e ∈ entriesDB_getByCheatsheetId s cheatsheetId,
      e.position < (handleSaveEntry s cheatsheetId f newId now).2.position) ∧
    (entriesDB_getByCheatsheetId s cheatsheetId ≠ [] →
      ∃ e ∈ entriesDB_getByCheatsheetId s cheatsheetId,
        (handleSaveEntry s cheatsheetId f newId now).2.position = e.position + 1) := by
  have hmemS : ∀ e, e ∈ useSyntaxEntries s cheatsheetId ↔
      e ∈ entriesDB_getByCheatsheetId s cheatsheetId := by
    intro e
    unfold useSyntaxEntries
    exact (List.mergeSort_perm _ _).mem_iff
  have hposval : (handleSaveEntry s cheatsheetId f newId now).2.position
      = maxPosition (useSyntaxEntries s cheatsheetId) + 1 := rfl
  refine ⟨?_, ?_, ?_, ?_⟩
  · have key : ∀ (position : Int),
        (useCreateEntry s cheatsheetId f position newId now).1.entries
          = s.entries ++ [(useCreateEntry s cheatsheetId f position newId now).2] := by
      intro position
      unfold useCreateEntry entriesDB_put
      apply putByKey_append
      intro y hy
      exact hfresh y hy
    exact key _
  · intro hempty
    rw [hposval]
    have : useSyntaxEntries s cheatsheetId = [] := by
      unfold useSyntaxEntries
      rw [hempty, List.mergeSort_nil]
    rw [this]
    rfl
  · intro e he
    rw [hposval]
    have := mem_le_foldl_max (useSyntaxEntries s cheatsheetId) (-1) e ((hmemS e).mpr he)
    unfold maxPosition
    omega
  · intro hne
    rw [hposval]
    rcases foldl_max_cases (useSyntaxEntries s cheatsheetId) (-1) with h | ⟨e, he, hx⟩
    · obtain ⟨e0, he0⟩ := List.exists_mem_of_ne_nil _ hne
      have h1 := mem_le_foldl_max (useSyntaxEntries s cheatsheetId) (-1) e0 ((hmemS e0).mpr he0)
      have h2 := hpos e0 he0
      unfold maxPosition at *
      omega
    · exact ⟨e, (hmemS e).mp he, by unfold maxPosition; omega⟩

/-- Witness for C2 at the demo store (two entries at positions 0 and 1;
the saved entry receives position 2 = 1 + 1). -/
theorem append_ordering_witness :
    ((handleSaveEntry demoStore "c1"
        { syn := "Array.reduce()", category := "Arrays", description := none
          exampleText := none, display_format := "card", language := "javascript" }
        "e3" "2024-03-03T00:00:00Z").1).entries
        = demoStore.entries ++ [(handleSaveEntry demoStore "c1"
            { syn := "Array.reduce()", category := "Arrays", description := none
              exampleText := none, display_format := "card", language := "javascript" }
            "e3" "2024-03-03T00:00:00Z").2] ∧
    (entriesDB_getByCheatsheetId demoStore "c1" = [] →
      (handleSaveEntry demoStore "c1"
        { syn := "Array.reduce()", category := "Arrays", description := none
          exampleText := none, display_format := "card", language := "javascript" }
        "e3" "2024-03-03T00:00:00Z").2.position = 0) ∧
    (∀ e ∈ entriesDB_getByCheatsheetId demoStore "c1",
      e.position < (handleSaveEntry demoStore "c1"
        { syn := "Array.reduce()", category := "Arrays", description := none
          exampleText := none, display_format := "card", language := "javascript" }
        "e3" "2024-03-03T00:00:00Z").2.position) ∧
    (entriesDB_getByCheatsheetId demoStore "c1" ≠ [] →
      ∃ e ∈ entriesDB_getByCheatsheetId demoStore "c1",
        (handleSaveEntry demoStore "c1"
          { syn := "Array.reduce()", category := "Arrays", description := none
            exampleText := none, display_format := "card", language := "javascript" }
          "e3" "2024-03-03T00:00:00Z").2.position = e.position + 1) :=
  append_ordering demoStore "c1"
    { syn := "Array.reduce()", category := "Arrays", description := none
      exampleText := none, display_format := "card", language := "javascript" }
    "e3" "2024-03-03T00:00:00Z" (by decide) (by decide)

/-- C8: on a store with unique entry ids, `reorderEntries` maps each
stored entry pointwise — an entry whose id is listed in the assignments
gets exactly its mapped position (the last assignment for that id,
matching the JS `Map` construction) and keeps every other field; an
entry whose id is not listed is left completely unchanged; the
cheatsheet collection is untouched. -/
theorem reorder_frame (s : Store) (a : List (String × Int))
    (hnd : (s.entries.map (fun e => e.id)).Nodup) :
    (useReorderEntries s a).entries = s.entries.map (updEntry a) ∧
    (useReorderEntries s a).cheatsheets = s.cheatsheets ∧
    (∀ e ∈ s.entries, lookupLast a e.id = none →
      e ∈ (useReorderEntries s a).entries) ∧
    (∀ e ∈ s.entries, ∀ p, lookupLast a e.id = some p →
      { e with position := p } ∈ (useReorderEntries s a).entries) := by
  obtain ⟨heq, hch⟩ := useReorderEntries_eq s a hnd
  refine ⟨heq, hch, ?_, ?_⟩
  · intro e he hnone
    rw [heq]
    have : updEntry a e = e := by
      unfold updEntry
      rw [hnone]
    exact this ▸ List.mem_map_of_mem (updEntry a) he
  · intro e he p hp
    rw [heq]
    have : updEntry a e = { e with position := p } := by
      unfold updEntry
      rw [hp]
    exact this ▸ List.mem_map_of_mem (updEntry a) he

/-- Witness for C8: reorder the demo store's two entries, listing only
`e1`. -/
theorem reorder_frame_witness :
    (useReorderEntries demoStore [("e1", 5)]).entries
        = demoStore.entries.map (updEntry [("e1", 5)]) ∧
    (useReorderEntries demoStore [("e1", 5)]).cheatsheets = demoStore.cheatsheets ∧
    (∀ e ∈ demoStore.entries, lookupLast [("e1", 5)] e.id = none →
      e ∈ (useReorderEntries demoStore [("e1", 5)]).entries) ∧
    (∀ e ∈ demoStore.entries, ∀ p, lookupLast [("e1", 5)] e.id = some p →
      { e with position := p } ∈ (useReorderEntries demoStore [("e1", 5)]).entries) :=
  reorder_frame demoStore [("e1", 5)] (by decide)

/-- C1: for a cheatsheet whose entries (in some display order `order`,
a permutation of the cheatsheet's full entry set) are submitted to
`reorderEntries` as the dense 0..n-1 assignment built by
`handleDragEnd`, reading the entry list back returns exactly those n
entries in the submitted order with positions exactly 0, 1, ..., n-1. -/
theorem reorder_density (s : Store) (cheatsheetId : String)
    (order : List LocalSyntaxEntry)
    (hnd : (s.entries.map (fun e => e.id)).Nodup)
    (hperm : order.Perm (entriesDB_getByCheatsheetId s cheatsheetId)) :
    useSyntaxEntries (useReorderEntries s (handleDragEndUpdates order)) cheatsheetId
      = order.enum.map (fun p => { p.2 with position := (p.1 : Int) }) ∧
    (useSyntaxEntries (useReorderEntries s (handleDragEndUpdates order)) cheatsheetId).map
        (fun e => e.position) = (List.range order.length).map Int.ofNat ∧
    (useSyntaxEntries (useReorderEntries s (handleDragEndUpdates order)) cheatsheetId).map
        (fun e => e.id) = order.map (fun e => e.id) := by
  set a := handleDragEndUpdates order with ha
  set E := entriesDB_getByCheatsheetId s cheatsheetId with hE
  set target := order.enum.map
    (fun p => { p.2 with position := (p.1 : Int) } : ℕ × LocalSyntaxEntry → LocalSyntaxEntry)
    with htarget
  have hsubl : (E.map (fun e => e.id)).Sublist (s.entries.map (fun e => e.id)) := by
    rw [hE]
    unfold entriesDB_getByCheatsheetId
    exact (List.filter_sublist _).map _
  have hndE : (E.map (fun e => e.id)).Nodup := List.Nodup.sublist hsubl hnd
  have hndOrder : (order.map (fun e => e.id)).Nodup :=
    ((hperm.map (fun e => e.id)).nodup_iff).mpr hndE
  have hkeys : a.map Prod.fst = order.map (fun e => e.id) := by
    rw [ha]
    unfold handleDragEndUpdates
    rw [List.map_map,
      show (Prod.fst ∘ fun p : ℕ × LocalSyntaxEntry => (p.2.id, (p.1 : Int)))
        = ((fun e : LocalSyntaxEntry => e.id) ∘ Prod.snd) from rfl,
      ← List.map_map, List.enum_map_snd]
  have hndKeys : (a.map Prod.fst).Nodup := by
    rw [hkeys]
    exact hndOrder
  have hlook : ∀ p ∈ order.enum, lookupLast a p.2.id = some ((p.1 : Int)) := by
    intro p hp
    apply lookupLast_of_nodup a p.2.id ((p.1 : Int)) hndKeys
    rw [ha]
    unfold handleDragEndUpdates
    exact List.mem_map_of_mem _ hp
  have hs' := useReorderEntries_eq s a hnd
  have hfilter : entriesDB_getByCheatsheetId (useReorderEntries s a) cheatsheetId
      = E.map (updEntry a) := by
    unfold entriesDB_getByCheatsheetId
    rw [hs'.1, List.filter_map, hE]
    unfold entriesDB_getByCheatsheetId
    congr 1
    apply List.filter_congr
    intro e _
    simp [updEntry_cheatsheet_id]
  have hmapupd : order.map (updEntry a) = target := by
    conv_lhs => rw [← List.enum_map_snd order, List.map_map]
    rw [htarget]
    apply List.map_congr_left
    intro p hp
    show updEntry a p.2 = _
    unfold updEntry
    rw [hlook p hp]
  have hpermS : (useSyntaxEntries (useReorderEntries s a) cheatsheetId).Perm target := by
    unfold useSyntaxEntries
    rw [hfilter]
    have hEt : (E.map (updEntry a)).Perm target := by
      rw [← hmapupd]
      exact hperm.symm.map (updEntry a)
    exact (List.mergeSort_perm _ _).trans hEt
  have hsorted : (useSyntaxEntries (useReorderEntries s a) cheatsheetId).Pairwise
      (fun x y => x.position ≤ y.position) := by
    unfold useSyntaxEntries
    have h := @List.sorted_mergeSort LocalSyntaxEntry
      (fun x y : LocalSyntaxEntry => decide (x.position ≤ y.position))
      (fun x y z h1 h2 => by
        simp only [decide_eq_true_eq] at h1 h2 ⊢
        omega)
      (fun x y => by
        simp only [Bool.or_eq_true, decide_eq_true_eq]
        omega)
      (entriesDB_getByCheatsheetId (useReorderEntries s a) cheatsheetId)
    exact h.imp (fun hb => by simpa using hb)
  have htargetlt : target.Pairwise (fun x y => x.position < y.position) := by
    rw [htarget, List.pairwise_map]
    have henum : order.enum.Pairwise (fun p q : ℕ × LocalSyntaxEntry => p.1 < q.1) := by
      rw [List.pairwise_iff_getElem]
      intro i j hi hj hij
      simp only [List.getElem_enum]
      exact hij
    refine henum.imp ?_
    intro p q h
    show (p.1 : Int) < (q.1 : Int)
    exact_mod_cast h
  have hmain : useSyntaxEntries (useReorderEntries s a) cheatsheetId = target :=
    perm_pairwise_eq hpermS hsorted htargetlt
  refine ⟨hmain, ?_, ?_⟩
  · rw [hmain, htarget, List.map_map,
      show ((fun e : LocalSyntaxEntry => e.position)
          ∘ fun p : ℕ × LocalSyntaxEntry => { p.2 with position := (p.1 : Int) })
        = (Int.ofNat ∘ Prod.fst) from rfl,
      ← List.map_map, List.enum_map_fst]
  · rw [hmain, htarget, List.map_map,
      show ((fun e : LocalSyntaxEntry => e.id)
          ∘ fun p : ℕ × LocalSyntaxEntry => { p.2 with position := (p.1 : Int) })
        = ((fun e : LocalSyntaxEntry => e.id) ∘ Prod.snd) from rfl,
      ← List.map_map, List.enum_map_snd]

/-- Witness for C1: swap the demo store's two entries; reading back
returns them in the submitted order with positions 0 and 1. -/
theorem reorder_density_witness :
    useSyntaxEntries
        (useReorderEntries demoStore (handleDragEndUpdates [demoEntryB, demoEntryA])) "c1"
      = [demoEntryB, demoEntryA].enum.map (fun p => { p.2 with position := (p.1 : Int) }) ∧
    (useSyntaxEntries
        (useReorderEntries demoStore (handleDragEndUpdates [demoEntryB, demoEntryA])) "c1").map
        (fun e => e.position)
      = (List.range [demoEntryB, demoEntryA].length).map Int.ofNat ∧
    (useSyntaxEntries
        (useReorderEntries demoStore (handleDragEndUpdates [demoEntryB, demoEntryA])) "c1").map
        (fun e => e.id) = [demoEntryB, demoEntryA].map (fun e => e.id) :=
  reorder_density demoStore "c1" [demoEntryB, demoEntryA] (by decide) (by decide)
